import Mathlib

/-
Verification of the CodeRAG retrieval engine against its specification.

Shallow embedding of:
  - reranker.py : reciprocal_rank_fusion, rerank_documents (fallback paths)
  - rag_engine.py : create_vector_db (batched embedding with retry/backoff),
    get_qa_chain / get_cached_qa_chain (TTL + LRU chain cache),
    clear_qa_chain_cache
  - worker.py : BackgroundWorker._process_job (job status lifecycle)

Modelling conventions:
  - Python strings are lists of characters (List Char); float scores and
    timestamps are rationals (the cache and RRF logic only add, subtract and
    compare them).
  - Python dicts are insertion-ordered association lists; assignment to an
    existing key keeps its position, assignment to a fresh key appends.
  - Python's sorted(..., key=f, reverse=True) is a stable descending sort;
    it is modelled by List.insertionSort with the relation
    fun a b => f b <= f a, which is stable in the same sense.
  - External effects (the embedding provider, the filesystem/pipeline build)
    are parameters: a provider call outcome function for create_vector_db and
    a build function for the chain cache.
-/

namespace CodeRAG

/-- A retrieved document as passed around by reranker.py: content, metadata
and a retrieval score.  Metadata is opaque to the algorithms, hence a type
parameter. -/
abbrev Doc (M : Type) : Type := List Char × M × ℚ

/-- reranker.py line 169: doc_key = content[:500]. -/
def docKey (content : List Char) : List Char := content.take 500

/-- Lookup in an insertion-ordered association list keyed by strings
(Python dict read d[k] / "k in d"). -/
def lookupKey? {β : Type} (l : List (List Char × β)) (key : List Char) : Option β :=
  (l.find? fun e => decide (e.1 = key)).map Prod.snd

/-- Python "del d[k]": remove the binding of a key (other bindings keep
their order). -/
def eraseKey {β : Type} (l : List (List Char × β)) (key : List Char) :
    List (List Char × β) :=
  l.filter fun e => decide (¬ e.1 = key)

/-- Python "d[k] = v" for a key already bound: the binding is replaced in
place. -/
def updateKey {β : Type} (l : List (List Char × β)) (key : List Char) (v : β) :
    List (List Char × β) :=
  l.map fun e => if e.1 = key then (e.1, v) else e

/-- The two dicts built by reciprocal_rank_fusion (reranker.py lines
162-164): rrf_scores maps a doc key to its accumulated RRF score,
doc_metadata maps it to the representative (content, metadata) fixed at the
key's first occurrence. -/
structure RRFState (M : Type) where
  rrf_scores : List (List Char × ℚ)
  doc_metadata : List (List Char × (List Char × M))

/-- rrf_scores[doc_key] += delta (the key is already present when the code
runs this; updating every binding of the key is the same on dicts, whose
keys are unique). -/
def rrfBump (scores : List (List Char × ℚ)) (key : List Char) (delta : ℚ) :
    List (List Char × ℚ) :=
  scores.map fun e => if e.1 = key then (e.1, e.2 + delta) else e

/-- The body of the inner loop of reciprocal_rank_fusion (reranker.py lines
167-176) for one document at 1-based rank `rank`: insert the key with score
0 and fix the representative if the key is new, then add 1/(k+rank). -/
def rrfStep {M : Type} (k : ℕ) (rank : ℕ) (st : RRFState M)
    (content : List Char) (meta : M) : RRFState M :=
  if (lookupKey? st.rrf_scores (docKey content)).isSome then
    ⟨rrfBump st.rrf_scores (docKey content) (1 / ((k : ℚ) + rank)),
      st.doc_metadata⟩
  else
    ⟨rrfBump (st.rrf_scores ++ [(docKey content, 0)]) (docKey content)
        (1 / ((k : ℚ) + rank)),
      st.doc_metadata ++ [(docKey content, (content, meta))]⟩

/-- The inner loop of reciprocal_rank_fusion over one ranked list,
enumerated from 1-based rank `rank`. -/
def rrfList {M : Type} (k : ℕ) : ℕ → List (Doc M) → RRFState M → RRFState M
  | _, [], st => st
  | rank, (c, m, _) :: rest, st => rrfList k (rank + 1) rest (rrfStep k rank st c m)

/-- The outer loop of reciprocal_rank_fusion: process the ranked lists in
order, starting from empty dicts. -/
def rrfAll {M : Type} (k : ℕ) (rankings : List (List (Doc M))) : RRFState M :=
  rankings.foldl (fun st ranking => rrfList k 1 ranking st) ⟨[], []⟩

/-- Python sorted(entries, key=lambda x: x[1], reverse=True): stable sort of
(key, score) pairs by score descending. -/
def scoreDescSort (l : List (List Char × ℚ)) : List (List Char × ℚ) :=
  List.insertionSort (fun a b => b.2 ≤ a.2) l

/-- reranker.py lines 143-184, reciprocal_rank_fusion: fuse ranked lists by
accumulating 1/(k+rank) per occurrence keyed on the first 500 content
characters, then return the top_n keys by score descending as
(content, metadata, score) triples.  The none branch of the lookup is dead
code: every key of rrf_scores is bound in doc_metadata. -/
def reciprocal_rank_fusion {M : Type} [Inhabited M] (k top_n : ℕ)
    (rankings : List (List (Doc M))) : List (Doc M) :=
  let st := rrfAll k rankings
  ((scoreDescSort st.rrf_scores).take top_n).map fun e =>
    match lookupKey? st.doc_metadata e.1 with
    | some (c, m) => (c, m, e.2)
    | none => ([], default, e.2)

/-- Spec-side score of one ranked list for a key: the sum of 1/(k+r) over
the documents of the list, enumerated at 1-based ranks from `r`, whose
500-character content prefix is the key. -/
def specScoreList {M : Type} (k : ℕ) (key : List Char) :
    ℕ → List (Doc M) → ℚ
  | _, [] => 0
  | r, (c, _, _) :: rest =>
      (if docKey c = key then 1 / ((k : ℚ) + r) else 0)
        + specScoreList k key (r + 1) rest

/-- Spec-side accumulated RRF score of a key: the claim's "add, for each
document at 1-based rank r of each input list, a contribution of 1/(k+r)". -/
def specScore {M : Type} (k : ℕ) (rankings : List (List (Doc M)))
    (key : List Char) : ℚ :=
  (rankings.map (specScoreList k key 1)).sum

/-- Spec-side representative of a key: the (content, metadata) of the first
document, in list-then-rank processing order, whose content prefix is the
key. -/
def specRep {M : Type} (rankings : List (List (Doc M))) (key : List Char) :
    Option (List Char × M) :=
  (rankings.flatten.find? fun d => decide (docKey d.1 = key)).map
    fun d => (d.1, d.2.1)

/-- The 1-based ranks, counted from `r`, at which a key occurs in one list. -/
def specRanks {M : Type} (key : List Char) : ℕ → List (Doc M) → List ℕ
  | _, [] => []
  | r, (c, _, _) :: rest =>
      (if docKey c = key then [r] else []) ++ specRanks key (r + 1) rest

/-- All (list, rank) occurrences of a key across the rankings, flattened in
processing order. -/
def specOcc {M : Type} (rankings : List (List (Doc M))) (key : List Char) :
    List ℕ :=
  (rankings.map fun l => specRanks key 1 l).flatten

/-- A document with its re-ranking score (reranker.py, dataclass
RankedDocument). -/
structure RankedDocument (M : Type) where
  content : List Char
  metadata : M
  original_score : ℚ
  rerank_score : ℚ
  final_rank : ℕ

/-- The fallback of rerank_documents (reranker.py lines 86-95 and 131-140):
candidates sorted by original score descending (stable), truncated to
top_k, with rerank_score := original score and 1-based final_rank in that
order. -/
def rerankFallback {M : Type} (documents : List (Doc M)) (top_k : ℕ) :
    List (RankedDocument M) :=
  ((List.insertionSort (fun a b => b.2.2 ≤ a.2.2) documents).take top_k).enum.map
    fun p => ⟨p.2.1, p.2.2.1, p.2.2.2, p.2.2.2, p.1 + 1⟩

/-- reranker.py lines 60-140, rerank_documents.  The cross-encoder is
modelled by an optional scoring function (none: sentence-transformers not
installed or the model failed to load, so get_reranker returned None); a
scoring call that raises is an Except.error result.  The model-available
success path scores the (query, content) pairs in one call, sorts by model
score descending, then filters by min_score while truncating to top_k with
1-based ranks. -/
def rerank_documents {M : Type}
    (reranker : Option (List (List Char × List Char) → Except (List Char) (List ℚ)))
    (query : List Char) (documents : List (Doc M)) (top_k : ℕ) (min_score : ℚ) :
    List (RankedDocument M) :=
  match documents with
  | [] => []
  | _ :: _ =>
    match reranker with
    | none => rerankFallback documents top_k
    | some predict =>
      match predict (documents.map fun d => (query, d.1)) with
      | .error _ => rerankFallback documents top_k
      | .ok scores =>
        let ranked := documents.enum.map fun p =>
          (⟨p.2.1, p.2.2.1, p.2.2.2, scores.getD p.1 0, 0⟩ : RankedDocument M)
        let sorted := List.insertionSort
          (fun a b => b.rerank_score ≤ a.rerank_score) ranked
        sorted.foldl (fun result doc =>
          if min_score ≤ doc.rerank_score ∧ result.length < top_k then
            result ++ [{ doc with final_rank := result.length + 1 }]
          else result) []

/-- Outcome of one call to FAISS.from_documents (one provider embedding
attempt): success, or an exception whose message is inspected. -/
inductive CallResult where
  | ok
  | err (msg : List Char)

/-- Bool-valued contiguous-subsequence test on character lists, used to
model Python's "sub in s". -/
def hasSub (pat : List Char) : List Char → Bool
  | [] => pat.isEmpty
  | c :: rest => pat.isPrefixOf (c :: rest) || hasSub pat rest

/-- rag_engine.py lines 104-105 / 123-124: an error is transient when its
lowercased message contains a quota / rate / resource_exhausted marker. -/
def isTransientMsg (msg : List Char) : Bool :=
  let e := msg.map Char.toLower
  hasSub "quota".toList e || hasSub "rate".toList e
    || hasSub "resource_exhausted".toList e

/-- How one retry loop (for attempt in range(max_retries)) ends: the
attempt succeeded and broke out; the attempts were exhausted (every one hit
a transient error); or a fatal error was re-raised. -/
inductive RetryOut where
  | succeeded
  | exhausted
  | fatal (msg : List Char)

/-- One retry loop of create_vector_db.  `prov` gives the outcome of the
n-th provider call overall, `c` is the index of the next call, `attempt`
the 0-based attempt number, and the last argument the remaining attempts
(3 at entry).  Returns the outcome, the next call index, and the backoff
sleeps (attempt+1)*30 performed, in order. -/
def retryLoop (prov : ℕ → CallResult) (c : ℕ) (attempt : ℕ) :
    ℕ → RetryOut × ℕ × List ℚ
  | 0 => (.exhausted, c, [])
  | n + 1 =>
    match prov c with
    | .ok => (.succeeded, c + 1, [])
    | .err msg =>
      if isTransientMsg msg then
        let r := retryLoop prov (c + 1) (attempt + 1) n
        (r.1, r.2.1, (((attempt : ℚ) + 1) * 30) :: r.2.2)
      else (.fatal msg, c + 1, [])

/-- Observable trace of create_vector_db: the documents of the merged FAISS
index (db is None until a batch succeeds), the number of provider calls
issued, and the sleeps performed in order (backoff sleeps and inter-batch
delays). -/
structure EmbedRun (α : Type) where
  chunks : Option (List α)
  calls : ℕ
  sleeps : List ℚ

/-- The batched loop of create_vector_db (rag_engine.py lines 86-114) over
the remaining texts.  Per batch of B texts: retry up to 3 times; on
success merge the batch into db; a fatal error propagates; exhausting the
retries falls through WITHOUT raising (the loop has no else clause), so the
batch is dropped; then sleep D if another batch follows (i + B < N).  Fuel
bounds the recursion; fuel >= remaining length suffices when 0 < B. -/
def processBatches (prov : ℕ → CallResult) (B : ℕ) (D : ℚ) :
    ℕ → List α → EmbedRun α → Except (List Char) (EmbedRun α)
  | _, [], st => .ok st
  | 0, _ :: _, st => .ok st
  | fuel + 1, a :: rest, st =>
    let rem := a :: rest
    let batch := rem.take B
    match retryLoop prov st.calls 0 3 with
    | (.fatal msg, _, _) => .error msg
    | (.succeeded, c, s) =>
      let st1 : EmbedRun α :=
        ⟨some (st.chunks.getD [] ++ batch), c, st.sleeps ++ s⟩
      let st2 := if B < rem.length then
          ⟨st1.chunks, st1.calls, st1.sleeps ++ [D]⟩ else st1
      processBatches prov B D fuel (rem.drop B) st2
    | (.exhausted, c, s) =>
      let st1 : EmbedRun α := ⟨st.chunks, c, st.sleeps ++ s⟩
      let st2 := if B < rem.length then
          ⟨st1.chunks, st1.calls, st1.sleeps ++ [D]⟩ else st1
      processBatches prov B D fuel (rem.drop B) st2

/-- rag_engine.py lines 68-143, create_vector_db, generalized over the
batch size B and inter-batch delay D.  Empty input returns None (line 74).
More than B texts takes the batched path; at its end db.save_local raises
AttributeError when db is still None (every batch was dropped).  At most B
texts are embedded in one retried call; there, exhausting the retries hits
the loop's else clause and raises (line 131). -/
def createVectorDbGen (prov : ℕ → CallResult) (B : ℕ) (D : ℚ)
    (texts : List α) : Except (List Char) (Option (EmbedRun α)) :=
  match texts with
  | [] => .ok none
  | _ :: _ =>
    if B < texts.length then
      match processBatches prov B D texts.length texts ⟨none, 0, []⟩ with
      | .error msg => .error msg
      | .ok st =>
        match st.chunks with
        | none => .error "attributeerror: nonetype object has no attribute save_local".toList
        | some _ => .ok (some st)
    else
      match retryLoop prov 0 0 3 with
      | (.succeeded, c, s) => .ok (some ⟨some texts, c, s⟩)
      | (.exhausted, _, _) =>
          .error "failed after multiple retries due to quota limits".toList
      | (.fatal msg, _, _) => .error msg

/-- rag_engine.py line 33: EMBEDDING_BATCH_SIZE = 50. -/
def EMBEDDING_BATCH_SIZE : ℕ := 50

/-- rag_engine.py line 34: EMBEDDING_BATCH_DELAY = 1.0. -/
def EMBEDDING_BATCH_DELAY : ℚ := 1

/-- create_vector_db with the module's constants. -/
def create_vector_db (prov : ℕ → CallResult) (texts : List α) :
    Except (List Char) (Option (EmbedRun α)) :=
  createVectorDbGen prov EMBEDDING_BATCH_SIZE EMBEDDING_BATCH_DELAY texts

/-- An opaque ConversationalRetrievalChain instance; only identity matters. -/
abbrev Chain : Type := ℕ

/-- The module-level _qa_chain_cache: an insertion-ordered dict from a
vector_db_path to (chain, cached_at). -/
abbrev QaCache : Type := List (List Char × (Chain × ℚ))

/-- rag_engine.py line 148: QA_CHAIN_CACHE_TTL = 3600. -/
def QA_CHAIN_CACHE_TTL : ℚ := 3600

/-- rag_engine.py line 149: QA_CHAIN_CACHE_MAX_SIZE = 10. -/
def QA_CHAIN_CACHE_MAX_SIZE : ℕ := 10

/-- rag_engine.py lines 198-283, get_qa_chain.  The filesystem and pipeline
wiring are external: `fs` maps a path to the chain its artifacts build, or
none when the directory is missing (line 204-206) or the FAISS index is
unreadable (lines 212-216) — both paths log and return None, raising
nothing. -/
def get_qa_chain (fs : List Char → Option Chain) (path : List Char) :
    Option Chain :=
  fs path

/-- What one get_cached_qa_chain call returns and does: the chain handed to
the caller, the cache afterwards, and whether get_qa_chain (the expensive
build) was invoked. -/
structure GetResult where
  chain : Option Chain
  cache : QaCache
  built : Bool

/-- Python min(cache.keys(), key=lambda k: cache[k][1]): the first key
attaining the minimal cached_at timestamp, in insertion order. -/
def oldestEntry (e : List Char × (Chain × ℚ)) (rest : QaCache) :
    List Char × (Chain × ℚ) :=
  rest.foldl (fun best x => if x.2.2 < best.2.2 then x else best) e

/-- rag_engine.py lines 172-185: build a new chain and, when one was built,
insert it, evicting the entry with the oldest timestamp first if the cache
is at capacity.  A failed build (chain None) caches nothing. -/
def buildAndCache (fs : List Char → Option Chain) (path : List Char)
    (now : ℚ) (cache : QaCache) : GetResult :=
  match get_qa_chain fs path with
  | some chain =>
    let cache1 := match cache with
      | [] => cache
      | e :: rest =>
        if QA_CHAIN_CACHE_MAX_SIZE ≤ cache.length then
          eraseKey cache (oldestEntry e rest).1
        else cache
    ⟨some chain, cache1 ++ [(path, (chain, now))], true⟩
  | none => ⟨none, cache, true⟩

/-- rag_engine.py lines 152-185, get_cached_qa_chain: a fresh cached entry
(now - cached_at < TTL) is returned with its timestamp slid to now; an
expired entry is deleted and rebuilt; a missing key is built and inserted. -/
def get_cached_qa_chain (fs : List Char → Option Chain) (path : List Char)
    (now : ℚ) (cache : QaCache) : GetResult :=
  match lookupKey? cache path with
  | some (chain, cached_at) =>
    if now - cached_at < QA_CHAIN_CACHE_TTL then
      ⟨some chain, updateKey cache path (chain, now), false⟩
    else
      buildAndCache fs path now (eraseKey cache path)
  | none => buildAndCache fs path now cache

/-- rag_engine.py lines 188-195, clear_qa_chain_cache: drop one binding or
the whole cache. -/
def clear_qa_chain_cache (path? : Option (List Char)) (cache : QaCache) :
    QaCache :=
  match path? with
  | some p => eraseKey cache p
  | none => []

/-- One operation on the process-wide chain cache. -/
inductive CacheOp where
  | get (fs : List Char → Option Chain) (path : List Char) (now : ℚ)
  | invalidate (path? : Option (List Char))

/-- Run a sequence of cache operations from a starting cache. -/
def runCacheOps : List CacheOp → QaCache → QaCache
  | [], cache => cache
  | .get fs p t :: ops, cache =>
      runCacheOps ops (get_cached_qa_chain fs p t cache).cache
  | .invalidate p? :: ops, cache =>
      runCacheOps ops (clear_qa_chain_cache p? cache)

/-- worker.py lines 18-23, JobStatus. -/
inductive JobStatus where
  | pending
  | running
  | completed
  | failed
deriving DecidableEq

/-- worker.py lines 26-38, Job (the fields _process_job touches). -/
structure Job (V : Type) where
  id : List Char
  func_name : List Char
  status : JobStatus
  result : Option V
  error : Option (List Char)
  created_at : ℚ
  started_at : Option ℚ
  completed_at : Option ℚ

/-- The status transitions worker.py allows: a job starts Running from
Pending and ends Completed or Failed from Running. -/
def JobStatus.step : JobStatus → JobStatus → Prop
  | .pending, .running => True
  | .running, .completed => True
  | .running, .failed => True
  | _, _ => False

/-- worker.py lines 107-124, _process_job.  The handler call is an Except
value: ok on return, error with the exception's message on raise.  The
exception is absorbed at this boundary (the function is total and returns
the updated job), the error message is stored as a string, and completed_at
is set in the finally block either way. -/
def processJob {V : Type} (handler : Except (List Char) V) (t_start t_end : ℚ)
    (job : Job V) : Job V :=
  let j1 := { job with status := JobStatus.running, started_at := some t_start }
  let j2 := match handler with
    | .ok v => { j1 with result := some v, status := JobStatus.completed }
    | .error e => { j1 with status := JobStatus.failed, error := some e }
  { j2 with completed_at := some t_end }

/-- The successive values the job's status field takes during _process_job:
its value at entry, then Running, then the terminal status. -/
def statusWrites {V : Type} (handler : Except (List Char) V) (job : Job V) :
    List JobStatus :=
  [job.status, JobStatus.running,
    match handler with
    | .ok _ => JobStatus.completed
    | .error _ => JobStatus.failed]

/-- Accumulated score of a key as Python reads it: rrf_scores[key], with 0
for an unbound key (the dict binds every seen key, so the default is never
read by the code). -/
def lookupScoreD (scores : List (List Char × ℚ)) (key : List Char) : ℚ :=
  (lookupKey? scores key).getD 0

/-- The two dicts of reciprocal_rank_fusion always bind the same keys. -/
def Aligned {M : Type} (st : RRFState M) : Prop :=
  ∀ key, (lookupKey? st.rrf_scores key).isSome
    ↔ (lookupKey? st.doc_metadata key).isSome

/-- Spec-side representative within one list: the first document whose
content prefix is the key. -/
def specRepList {M : Type} (l : List (Doc M)) (key : List Char) :
    Option (List Char × M) :=
  (l.find? fun d => decide (docKey d.1 = key)).map fun d => (d.1, d.2.1)

/-- The cache holds a fresh (non-expired) entry for the path, so a get
returns it without attempting a build. -/
def FreshHit (cache : QaCache) (path : List Char) (now : ℚ) : Prop :=
  ∃ c ts, lookupKey? cache path = some (c, ts)
    ∧ now - ts < QA_CHAIN_CACHE_TTL

/-- get_cached_qa_chain viewed in an exception monad: the source raises on
none of the build-failure paths (missing directory and unreadable index
both return None inside get_qa_chain), so the embedded call always returns
ok. -/
def get_cached_qa_chain_exc (fs : List Char → Option Chain) (path : List Char)
    (now : ℚ) (cache : QaCache) : Except (List Char) GetResult :=
  .ok (get_cached_qa_chain fs path now cache)

lemma lookupKey?_nil {β : Type} (key : List Char) :
    lookupKey? ([] : List (List Char × β)) key = none := rfl

lemma lookupKey?_cons {β : Type} (kk : List Char) (v : β)
    (l : List (List Char × β)) (key : List Char) :
    lookupKey? ((kk, v) :: l) key
      = if kk = key then some v else lookupKey? l key := by
  by_cases h : kk = key <;> simp [lookupKey?, List.find?_cons, h]

lemma lookupKey?_append {β : Type} (l₁ l₂ : List (List Char × β))
    (key : List Char) :
    lookupKey? (l₁ ++ l₂) key = (lookupKey? l₁ key).or (lookupKey? l₂ key) := by
  unfold lookupKey?
  rw [List.find?_append]
  cases List.find? (fun e => decide (e.1 = key)) l₁ <;> simp

lemma eraseKey_cons {β : Type} (kk : List Char) (v : β)
    (rest : List (List Char × β)) (key : List Char) :
    eraseKey ((kk, v) :: rest) key
      = if kk = key then eraseKey rest key else (kk, v) :: eraseKey rest key := by
  by_cases h : kk = key <;> simp [eraseKey, List.filter_cons, h]

lemma updateKey_cons {β : Type} (kk : List Char) (v : β)
    (rest : List (List Char × β)) (key : List Char) (w : β) :
    updateKey ((kk, v) :: rest) key w
      = (if kk = key then (kk, w) else (kk, v)) :: updateKey rest key w := by
  by_cases h : kk = key <;> simp [updateKey, h]

lemma lookupKey?_eraseKey_self {β : Type} (l : List (List Char × β))
    (key : List Char) : lookupKey? (eraseKey l key) key = none := by
  induction l with
  | nil => rfl
  | cons e rest ih =>
    obtain ⟨kk, v⟩ := e
    rw [eraseKey_cons]
    by_cases h : kk = key
    · rw [if_pos h]
      exact ih
    · rw [if_neg h, lookupKey?_cons, if_neg h]
      exact ih

lemma lookupKey?_eraseKey_of_ne {β : Type} (l : List (List Char × β))
    {key key' : List Char} (h : key' ≠ key) :
    lookupKey? (eraseKey l key) key' = lookupKey? l key' := by
  induction l with
  | nil => rfl
  | cons e rest ih =>
    obtain ⟨kk, v⟩ := e
    rw [eraseKey_cons]
    by_cases h1 : kk = key
    · have h2 : ¬ kk = key' := fun h3 => h ((h3.symm.trans h1))
      rw [if_pos h1, lookupKey?_cons, if_neg h2]
      exact ih
    · rw [if_neg h1, lookupKey?_cons, lookupKey?_cons]
      by_cases h2 : kk = key'
      · rw [if_pos h2, if_pos h2]
      · rw [if_neg h2, if_neg h2]
        exact ih

lemma eraseKey_of_lookup_none {β : Type} (l : List (List Char × β))
    {key : List Char} (h : lookupKey? l key = none) : eraseKey l key = l := by
  induction l with
  | nil => rfl
  | cons e rest ih =>
    obtain ⟨kk, v⟩ := e
    rw [lookupKey?_cons] at h
    by_cases h1 : kk = key
    · rw [if_pos h1] at h
      exact absurd h (by simp)
    · rw [if_neg h1] at h
      rw [eraseKey_cons, if_neg h1, ih h]

lemma lookupKey?_updateKey_self {β : Type} (l : List (List Char × β))
    (key : List Char) (v : β) :
    lookupKey? (updateKey l key v) key = (lookupKey? l key).map fun _ => v := by
  induction l with
  | nil => rfl
  | cons e rest ih =>
    obtain ⟨kk, w⟩ := e
    rw [updateKey_cons]
    by_cases h : kk = key
    · rw [if_pos h, lookupKey?_cons, lookupKey?_cons, if_pos h, if_pos h]
      rfl
    · rw [if_neg h, lookupKey?_cons, lookupKey?_cons, if_neg h, if_neg h]
      exact ih

lemma lookupKey?_updateKey_of_ne {β : Type} (l : List (List Char × β))
    {key key' : List Char} (v : β) (h : key' ≠ key) :
    lookupKey? (updateKey l key v) key' = lookupKey? l key' := by
  induction l with
  | nil => rfl
  | cons e rest ih =>
    obtain ⟨kk, w⟩ := e
    rw [updateKey_cons]
    by_cases h1 : kk = key
    · have h2 : ¬ kk = key' := fun h3 => h ((h3.symm.trans h1))
      rw [if_pos h1, lookupKey?_cons, lookupKey?_cons, if_neg h2, if_neg h2]
      exact ih
    · rw [if_neg h1, lookupKey?_cons, lookupKey?_cons]
      by_cases h2 : kk = key'
      · rw [if_pos h2, if_pos h2]
      · rw [if_neg h2, if_neg h2]
        exact ih

lemma length_updateKey {β : Type} (l : List (List Char × β))
    (key : List Char) (v : β) : (updateKey l key v).length = l.length := by
  simp [updateKey]

lemma length_eraseKey_le {β : Type} (l : List (List Char × β))
    (key : List Char) : (eraseKey l key).length ≤ l.length :=
  List.length_filter_le _ _

lemma rrfBump_cons (kk : List Char) (v : ℚ) (rest : List (List Char × ℚ))
    (key : List Char) (d : ℚ) :
    rrfBump ((kk, v) :: rest) key d
      = (if kk = key then (kk, v + d) else (kk, v)) :: rrfBump rest key d := by
  by_cases h : kk = key <;> simp [rrfBump, h]

lemma lookupKey?_rrfBump (scores : List (List Char × ℚ)) (key : List Char)
    (d : ℚ) (key' : List Char) :
    lookupKey? (rrfBump scores key d) key'
      = (lookupKey? scores key').map fun v => if key' = key then v + d else v := by
  induction scores with
  | nil => rfl
  | cons e rest ih =>
    obtain ⟨kk, v⟩ := e
    rw [rrfBump_cons]
    by_cases h1 : kk = key
    · by_cases h2 : kk = key'
      · rw [if_pos h1, lookupKey?_cons, lookupKey?_cons, if_pos h2, if_pos h2]
        simp [h2.symm.trans h1]
      · rw [if_pos h1, lookupKey?_cons, lookupKey?_cons, if_neg h2, if_neg h2]
        exact ih
    · by_cases h2 : kk = key'
      · rw [if_neg h1, lookupKey?_cons, lookupKey?_cons, if_pos h2, if_pos h2]
        simp [show ¬ key' = key from fun h3 => h1 (h2.trans h3)]
      · rw [if_neg h1, lookupKey?_cons, lookupKey?_cons, if_neg h2, if_neg h2]
        exact ih

lemma rrfStep_present {M : Type} {k r : ℕ} {st : RRFState M}
    {c : List Char} {m : M}
    (hp : (lookupKey? st.rrf_scores (docKey c)).isSome) :
    rrfStep k r st c m
      = ⟨rrfBump st.rrf_scores (docKey c) (1 / ((k : ℚ) + r)),
          st.doc_metadata⟩ := by
  unfold rrfStep
  rw [if_pos hp]

lemma rrfStep_absent {M : Type} {k r : ℕ} {st : RRFState M}
    {c : List Char} {m : M}
    (hp : ¬ (lookupKey? st.rrf_scores (docKey c)).isSome) :
    rrfStep k r st c m
      = ⟨rrfBump (st.rrf_scores ++ [(docKey c, 0)]) (docKey c)
            (1 / ((k : ℚ) + r)),
          st.doc_metadata ++ [(docKey c, (c, m))]⟩ := by
  unfold rrfStep
  rw [if_neg hp]

lemma lookupScoreD_rrfStep {M : Type} (k r : ℕ) (st : RRFState M)
    (c : List Char) (m : M) (key' : List Char) :
    lookupScoreD (rrfStep k r st c m).rrf_scores key'
      = lookupScoreD st.rrf_scores key'
        + (if docKey c = key' then 1 / ((k : ℚ) + r) else 0) := by
  by_cases hp : (lookupKey? st.rrf_scores (docKey c)).isSome
  · rw [rrfStep_present hp]
    unfold lookupScoreD
    dsimp only
    rw [lookupKey?_rrfBump]
    by_cases hk : docKey c = key'
    · rw [if_pos hk]
      rcases ho : lookupKey? st.rrf_scores key' with _ | v
      · rw [hk] at hp
        rw [ho] at hp
        simp at hp
      · simp [hk.symm]
    · have hk' : ¬ key' = docKey c := fun h => hk h.symm
      rcases ho : lookupKey? st.rrf_scores key' with _ | v <;>
        simp [hk', hk]
  · rw [rrfStep_absent hp]
    unfold lookupScoreD
    dsimp only
    rw [lookupKey?_rrfBump, lookupKey?_append]
    by_cases hk : docKey c = key'
    · rw [if_pos hk]
      have h0 : lookupKey? st.rrf_scores key' = none := by
        rw [← hk]
        exact Option.not_isSome_iff_eq_none.mp hp
      rw [h0, lookupKey?_cons, if_pos hk]
      simp [hk.symm]
    · have hk' : ¬ key' = docKey c := fun h => hk h.symm
      rw [if_neg hk, lookupKey?_cons, if_neg hk]
      rcases ho : lookupKey? st.rrf_scores key' with _ | v <;>
        simp [hk', lookupKey?_nil]

lemma lookupKey?_rrfStep_meta {M : Type} (k r : ℕ) (st : RRFState M)
    (c : List Char) (m : M) (key' : List Char) (hal : Aligned st) :
    lookupKey? (rrfStep k r st c m).doc_metadata key'
      = (lookupKey? st.doc_metadata key').or
          (if docKey c = key' then some (c, m) else none) := by
  by_cases hp : (lookupKey? st.rrf_scores (docKey c)).isSome
  · rw [rrfStep_present hp]
    dsimp only
    by_cases hk : docKey c = key'
    · rw [if_pos hk]
      have hm : (lookupKey? st.doc_metadata key').isSome := by
        rw [← hk]
        exact (hal (docKey c)).mp hp
      rcases ho : lookupKey? st.doc_metadata key' with _ | w
      · rw [ho] at hm
        simp at hm
      · rfl
    · rw [if_neg hk, Option.or_none]
  · rw [rrfStep_absent hp]
    dsimp only
    rw [lookupKey?_append, lookupKey?_cons]
    rfl

lemma aligned_rrfStep {M : Type} (k r : ℕ) (st : RRFState M)
    (c : List Char) (m : M) (hal : Aligned st) :
    Aligned (rrfStep k r st c m) := by
  intro key'
  by_cases hp : (lookupKey? st.rrf_scores (docKey c)).isSome
  · rw [rrfStep_present hp]
    dsimp only
    rw [lookupKey?_rrfBump]
    simp [hal key']
  · rw [rrfStep_absent hp]
    dsimp only
    rw [lookupKey?_rrfBump, lookupKey?_append, lookupKey?_append,
      lookupKey?_cons, lookupKey?_cons]
    by_cases hk : docKey c = key'
    · simp [hk]
    · simp [hk, hal key', lookupKey?_nil]

lemma specRepList_cons {M : Type} (c : List Char) (m : M) (s : ℚ)
    (rest : List (Doc M)) (key : List Char) :
    specRepList (((c, m, s) : Doc M) :: rest) key
      = if docKey c = key then some (c, m) else specRepList rest key := by
  by_cases h : docKey c = key <;> simp [specRepList, List.find?_cons, h]

lemma specRepList_append {M : Type} (l₁ l₂ : List (Doc M)) (key : List Char) :
    specRepList (l₁ ++ l₂) key
      = (specRepList l₁ key).or (specRepList l₂ key) := by
  unfold specRepList
  rw [List.find?_append]
  cases List.find? (fun d => decide (docKey d.1 = key)) l₁ <;> simp

lemma lookupScoreD_rrfList {M : Type} (k : ℕ) (key' : List Char)
    (l : List (Doc M)) : ∀ (r : ℕ) (st : RRFState M),
    lookupScoreD (rrfList k r l st).rrf_scores key'
      = lookupScoreD st.rrf_scores key' + specScoreList k key' r l := by
  induction l with
  | nil =>
    intro r st
    simp [rrfList, specScoreList]
  | cons d rest ih =>
    intro r st
    obtain ⟨c, m, s⟩ := d
    rw [show rrfList k r ((c, m, s) :: rest) st
        = rrfList k (r + 1) rest (rrfStep k r st c m) from rfl]
    rw [ih (r + 1) (rrfStep k r st c m), lookupScoreD_rrfStep]
    rw [show specScoreList k key' r (((c, m, s) : Doc M) :: rest)
        = (if docKey c = key' then 1 / ((k : ℚ) + r) else 0)
          + specScoreList k key' (r + 1) rest from rfl]
    ring

lemma aligned_rrfList {M : Type} (k : ℕ) (l : List (Doc M)) :
    ∀ (r : ℕ) (st : RRFState M), Aligned st → Aligned (rrfList k r l st) := by
  induction l with
  | nil =>
    intro r st h
    exact h
  | cons d rest ih =>
    intro r st h
    obtain ⟨c, m, s⟩ := d
    exact ih (r + 1) _ (aligned_rrfStep k r st c m h)

lemma lookupKey?_rrfList_meta {M : Type} (k : ℕ) (key' : List Char)
    (l : List (Doc M)) : ∀ (r : ℕ) (st : RRFState M), Aligned st →
    lookupKey? (rrfList k r l st).doc_metadata key'
      = (lookupKey? st.doc_metadata key').or (specRepList l key') := by
  induction l with
  | nil =>
    intro r st _
    simp [rrfList, specRepList, lookupKey?_nil]
  | cons d rest ih =>
    intro r st h
    obtain ⟨c, m, s⟩ := d
    rw [show rrfList k r ((c, m, s) :: rest) st
        = rrfList k (r + 1) rest (rrfStep k r st c m) from rfl]
    rw [ih (r + 1) _ (aligned_rrfStep k r st c m h),
      lookupKey?_rrfStep_meta k r st c m key' h, specRepList_cons]
    by_cases hk : docKey c = key'
    · simp [hk, Option.or_assoc]
    · simp [hk]

lemma lookupScoreD_rrfFold {M : Type} (k : ℕ) (key' : List Char)
    (rankings : List (List (Doc M))) : ∀ (st : RRFState M),
    lookupScoreD
        ((rankings.foldl (fun st ranking => rrfList k 1 ranking st) st)).rrf_scores
        key'
      = lookupScoreD st.rrf_scores key'
        + (rankings.map (specScoreList k key' 1)).sum := by
  induction rankings with
  | nil =>
    intro st
    simp
  | cons rk rest ih =>
    intro st
    rw [List.foldl_cons, ih, lookupScoreD_rrfList]
    rw [List.map_cons, List.sum_cons]
    ring

lemma aligned_rrfFold {M : Type} (k : ℕ)
    (rankings : List (List (Doc M))) : ∀ (st : RRFState M), Aligned st →
    Aligned (rankings.foldl (fun st ranking => rrfList k 1 ranking st) st) := by
  induction rankings with
  | nil =>
    intro st h
    exact h
  | cons rk rest ih =>
    intro st h
    exact ih _ (aligned_rrfList k rk 1 st h)

lemma lookupKey?_rrfFold_meta {M : Type} (k : ℕ) (key' : List Char)
    (rankings : List (List (Doc M))) : ∀ (st : RRFState M), Aligned st →
    lookupKey?
        ((rankings.foldl (fun st ranking => rrfList k 1 ranking st) st)).doc_metadata
        key'
      = (lookupKey? st.doc_metadata key').or
          (specRepList rankings.flatten key') := by
  induction rankings with
  | nil =>
    intro st _
    simp [specRepList, lookupKey?_nil]
  | cons rk rest ih =>
    intro st h
    rw [List.foldl_cons, ih _ (aligned_rrfList k rk 1 st h),
      lookupKey?_rrfList_meta k key' rk 1 st h]
    rw [show (rk :: rest).flatten = rk ++ rest.flatten from rfl,
      specRepList_append, Option.or_assoc]

lemma aligned_empty {M : Type} : Aligned (⟨[], []⟩ : RRFState M) := by
  intro key
  simp [lookupKey?_nil]

lemma rrfAll_score {M : Type} (k : ℕ) (rankings : List (List (Doc M)))
    (key : List Char) :
    lookupScoreD (rrfAll k rankings).rrf_scores key
      = specScore k rankings key := by
  unfold rrfAll specScore
  rw [lookupScoreD_rrfFold]
  simp [lookupScoreD, lookupKey?_nil]

lemma rrfAll_meta {M : Type} (k : ℕ) (rankings : List (List (Doc M)))
    (key : List Char) :
    lookupKey? (rrfAll k rankings).doc_metadata key = specRep rankings key := by
  unfold rrfAll
  rw [lookupKey?_rrfFold_meta k key rankings ⟨[], []⟩ aligned_empty]
  rw [show lookupKey? (⟨[], []⟩ : RRFState M).doc_metadata key = none from rfl]
  rw [show specRep rankings key = specRepList rankings.flatten key from rfl]
  exact Option.none_or

lemma specScoreList_eq_ranks_sum {M : Type} (k : ℕ) (key : List Char)
    (l : List (Doc M)) : ∀ (r : ℕ),
    specScoreList k key r l
      = ((specRanks key r l).map fun rr : ℕ => 1 / ((k : ℚ) + rr)).sum := by
  induction l with
  | nil =>
    intro r
    simp [specScoreList, specRanks]
  | cons d rest ih =>
    intro r
    obtain ⟨c, m, s⟩ := d
    rw [show specScoreList k key r (((c, m, s) : Doc M) :: rest)
        = (if docKey c = key then 1 / ((k : ℚ) + r) else 0)
          + specScoreList k key (r + 1) rest from rfl]
    rw [show specRanks key r (((c, m, s) : Doc M) :: rest)
        = (if docKey c = key then [r] else []) ++ specRanks key (r + 1) rest
        from rfl]
    rw [List.map_append, List.sum_append, ih (r + 1)]
    by_cases h : docKey c = key <;> simp [h]

lemma specScore_eq_occ_sum {M : Type} (k : ℕ)
    (rankings : List (List (Doc M))) (key : List Char) :
    specScore k rankings key
      = ((specOcc rankings key).map fun rr : ℕ => 1 / ((k : ℚ) + rr)).sum := by
  induction rankings with
  | nil => rfl
  | cons rk rest ih =>
    rw [show specScore k (rk :: rest) key
        = specScoreList k key 1 rk + specScore k rest key by
      unfold specScore
      rw [List.map_cons, List.sum_cons]]
    rw [show specOcc (rk :: rest) key
        = specRanks key 1 rk ++ specOcc rest key from rfl]
    rw [List.map_append, List.sum_append, ih, specScoreList_eq_ranks_sum]

lemma le_of_mem_specRanks {M : Type} (key : List Char) (l : List (Doc M)) :
    ∀ (r rr : ℕ), rr ∈ specRanks key r l → r ≤ rr := by
  induction l with
  | nil =>
    intro r rr h
    simp [specRanks] at h
  | cons d rest ih =>
    intro r rr h
    obtain ⟨c, m, s⟩ := d
    rw [show specRanks key r (((c, m, s) : Doc M) :: rest)
        = (if docKey c = key then [r] else []) ++ specRanks key (r + 1) rest
        from rfl] at h
    rcases List.mem_append.mp h with h1 | h2
    · by_cases hc : docKey c = key
      · rw [if_pos hc] at h1
        simp at h1
        omega
      · rw [if_neg hc] at h1
        simp at h1
    · have := ih (r + 1) rr h2
      omega

lemma one_le_of_mem_specOcc {M : Type} (rankings : List (List (Doc M)))
    (key : List Char) (rr : ℕ) (h : rr ∈ specOcc rankings key) : 1 ≤ rr := by
  unfold specOcc at h
  rcases List.mem_flatten.mp h with ⟨l, hl, hm⟩
  rcases List.mem_map.mp hl with ⟨rk, _, hrk⟩
  exact le_of_mem_specRanks key rk 1 rr (hrk ▸ hm)

lemma docKey_small (l : List Char) (h : l.length ≤ 500) : docKey l = l :=
  List.take_of_length_le h

lemma scoreDescSort_sorted (l : List (List Char × ℚ)) :
    List.Sorted (fun a b : List Char × ℚ => b.2 ≤ a.2) (scoreDescSort l) := by
  haveI : IsTotal (List Char × ℚ) (fun a b => b.2 ≤ a.2) :=
    ⟨fun a b => le_total b.2 a.2⟩
  haveI : IsTrans (List Char × ℚ) (fun a b => b.2 ≤ a.2) :=
    ⟨fun _ _ _ h1 h2 => le_trans h2 h1⟩
  exact List.sorted_insertionSort _ l

lemma scoreDescSort_perm (l : List (List Char × ℚ)) :
    (scoreDescSort l).Perm l :=
  List.perm_insertionSort _ l

/-- C1: reciprocal_rank_fusion adds, for each document at 1-based rank r of
each input list, 1/(k+r) to a running score keyed by the first 500 content
characters, the first occurrence of a key fixing its representative
(content, metadata); the output is the keys sorted by accumulated score
descending (a stable descending sort of the accumulated entries), truncated
to top_n, as (content, metadata, score) triples.  A key occurring exactly
twice, at ranks r1 and r2, scores 1/(k+r1) + 1/(k+r2), strictly more than a
key occurring only once at the equal rank r1. -/
theorem rrf_fusion_spec {M : Type} [Inhabited M] (k top_n : ℕ)
    (rankings : List (List (Doc M))) :
    (∀ key, lookupScoreD (rrfAll k rankings).rrf_scores key
        = specScore k rankings key)
  ∧ (∀ key, lookupKey? (rrfAll k rankings).doc_metadata key
        = specRep rankings key)
  ∧ (∃ entries : List (List Char × ℚ),
        entries.Perm (rrfAll k rankings).rrf_scores
      ∧ List.Sorted (fun a b : List Char × ℚ => b.2 ≤ a.2) entries
      ∧ reciprocal_rank_fusion k top_n rankings
          = (entries.take top_n).map fun e =>
              match specRep rankings e.1 with
              | some (c, m) => (c, m, e.2)
              | none => ([], default, e.2))
  ∧ (∀ (key1 key2 : List Char) (r1 r2 : ℕ),
        specOcc rankings key2 = [r1, r2] → specOcc rankings key1 = [r1] →
        specScore k rankings key2
            = 1 / ((k : ℚ) + r1) + 1 / ((k : ℚ) + r2)
          ∧ specScore k rankings key1 = 1 / ((k : ℚ) + r1)
          ∧ specScore k rankings key1 < specScore k rankings key2) := by
  refine ⟨rrfAll_score k rankings, rrfAll_meta k rankings, ?_, ?_⟩
  · refine ⟨scoreDescSort (rrfAll k rankings).rrf_scores,
      scoreDescSort_perm _, scoreDescSort_sorted _, ?_⟩
    have hfun :
        (fun e : List Char × ℚ =>
          match lookupKey? (rrfAll k rankings).doc_metadata e.1 with
          | some (c, m) => ((c, m, e.2) : Doc M)
          | none => ([], default, e.2))
        = fun e : List Char × ℚ =>
          match specRep rankings e.1 with
          | some (c, m) => ((c, m, e.2) : Doc M)
          | none => ([], default, e.2) := by
      funext e
      rw [rrfAll_meta]
    calc reciprocal_rank_fusion k top_n rankings
        = ((scoreDescSort (rrfAll k rankings).rrf_scores).take top_n).map
            (fun e : List Char × ℚ =>
              match lookupKey? (rrfAll k rankings).doc_metadata e.1 with
              | some (c, m) => ((c, m, e.2) : Doc M)
              | none => ([], default, e.2)) := rfl
      _ = _ := by rw [hfun]
  · intro key1 key2 r1 r2 h2 h1
    have hs2 : specScore k rankings key2
        = 1 / ((k : ℚ) + r1) + 1 / ((k : ℚ) + r2) := by
      rw [specScore_eq_occ_sum, h2]
      simp
    have hs1 : specScore k rankings key1 = 1 / ((k : ℚ) + r1) := by
      rw [specScore_eq_occ_sum, h1]
      simp
    refine ⟨hs2, hs1, ?_⟩
    have hr2 : 1 ≤ r2 :=
      one_le_of_mem_specOcc rankings key2 r2 (by rw [h2]; simp)
    have hr2q : (1 : ℚ) ≤ (r2 : ℚ) := by exact_mod_cast hr2
    have hkq : (0 : ℚ) ≤ (k : ℚ) := Nat.cast_nonneg k
    have hpos : 0 < 1 / ((k : ℚ) + r2) := by
      apply div_pos one_pos
      linarith
    rw [hs1, hs2]
    linarith

/-- C4 (counterexample): the fused output is not invariant under permuting
the input lists.  Fusing the single-document lists [doc a] and [doc b] in
the two orders yields the two equal-scored keys in opposite output orders,
because the stable sort breaks the tie by dict insertion order, which
follows the order the lists were supplied. -/
theorem rrf_not_commutative_cex :
    ([[(['a'], (0 : ℕ), (0 : ℚ))], [(['b'], 0, 0)]] :
        List (List (Doc ℕ))).Perm
      [[(['b'], (0 : ℕ), (0 : ℚ))], [(['a'], 0, 0)]]
  ∧ reciprocal_rank_fusion 60 10
        ([[(['a'], (0 : ℕ), (0 : ℚ))], [(['b'], 0, 0)]] : List (List (Doc ℕ)))
      ≠ reciprocal_rank_fusion 60 10
        ([[(['b'], (0 : ℕ), (0 : ℚ))], [(['a'], 0, 0)]] :
          List (List (Doc ℕ))) := by
  constructor
  · exact List.Perm.swap _ _ _
  · intro h
    have h' := congrArg (fun l => l.map fun t : Doc ℕ => t.1) h
    simp [reciprocal_rank_fusion, rrfAll, rrfList, rrfStep, rrfBump,
      scoreDescSort, List.insertionSort, List.orderedInsert, lookupKey?_cons,
      lookupKey?_nil, docKey_small] at h'

/-- C4 (amended): the accumulated RRF score of every key is invariant under
permuting the order the input lists are supplied; the emitted sequence,
however, can differ between permutations when scores tie (the stable sort
breaks ties by first-occurrence order), and fusion remains sensitive to the
order of documents within a list. -/
theorem rrf_perm_invariant_scores :
    (∀ {M : Type} (k : ℕ) (r1 r2 : List (List (Doc M))), r1.Perm r2 →
        ∀ key, specScore k r1 key = specScore k r2 key
          ∧ lookupScoreD (rrfAll k r1).rrf_scores key
              = lookupScoreD (rrfAll k r2).rrf_scores key)
  ∧ specScore 60
        ([[(['x'], (0 : ℕ), (0 : ℚ)), (['y'], 0, 0)]] : List (List (Doc ℕ)))
        (docKey ['x'])
      ≠ specScore 60
        ([[(['y'], (0 : ℕ), (0 : ℚ)), (['x'], 0, 0)]] : List (List (Doc ℕ)))
        (docKey ['x']) := by
  constructor
  · intro M k r1 r2 hp key
    have hspec : specScore k r1 key = specScore k r2 key :=
      ((hp.map (specScoreList k key 1)).sum_eq)
    exact ⟨hspec, by rw [rrfAll_score, rrfAll_score, hspec]⟩
  · intro h
    rw [specScore, specScore] at h
    have hyx : ¬ ('y' = 'x') := by decide
    norm_num [specScoreList, docKey_small, hyx] at h

lemma origDescSort_sorted {M : Type} (documents : List (Doc M)) :
    List.Sorted (fun a b : Doc M => b.2.2 ≤ a.2.2)
      (List.insertionSort (fun a b : Doc M => b.2.2 ≤ a.2.2) documents) := by
  haveI : IsTotal (Doc M) (fun a b => b.2.2 ≤ a.2.2) :=
    ⟨fun a b => le_total b.2.2 a.2.2⟩
  haveI : IsTrans (Doc M) (fun a b => b.2.2 ≤ a.2.2) :=
    ⟨fun _ _ _ h1 h2 => le_trans h2 h1⟩
  exact List.sorted_insertionSort _ documents

lemma rerankFallback_map_doc {M : Type} (documents : List (Doc M))
    (top_k : ℕ) :
    (rerankFallback documents top_k).map
        (fun d => ((d.content, d.metadata, d.original_score) : Doc M))
      = (List.insertionSort (fun a b : Doc M => b.2.2 ≤ a.2.2)
          documents).take top_k := by
  unfold rerankFallback
  rw [List.map_map]
  have hcomp :
      ((fun d : RankedDocument M =>
          ((d.content, d.metadata, d.original_score) : Doc M))
        ∘ fun p : ℕ × Doc M =>
          (⟨p.2.1, p.2.2.1, p.2.2.2, p.2.2.2, p.1 + 1⟩ : RankedDocument M))
        = Prod.snd := by
    funext p
    rfl
  rw [hcomp, List.enum_map_snd]

/-- C6: when the cross-encoder is unavailable (reranker none) or the
scoring call raises (predict returns an error), rerank_documents returns
the fallback: the candidates sorted by original_score descending (stable),
truncated to top_k, with rerank_score equal to original_score and 1-based
final_rank in emission order.  The fallback path is a total function value,
so it raises nothing to the caller. -/
theorem rerank_documents_fallback :
    ∀ {M : Type} (query : List Char) (documents : List (Doc M)) (top_k : ℕ)
      (min_score : ℚ),
    (rerank_documents none query documents top_k min_score
        = rerankFallback documents top_k)
  ∧ (∀ (predict : List (List Char × List Char) → Except (List Char) (List ℚ))
        (e : List Char),
        predict (documents.map fun d => (query, d.1)) = Except.error e →
        rerank_documents (some predict) query documents top_k min_score
          = rerankFallback documents top_k)
  ∧ (rerankFallback documents top_k).length ≤ top_k
  ∧ (∀ d ∈ rerankFallback documents top_k, d.rerank_score = d.original_score)
  ∧ ((rerankFallback documents top_k).map
        fun d => ((d.content, d.metadata, d.original_score) : Doc M))
      = (List.insertionSort (fun a b : Doc M => b.2.2 ≤ a.2.2)
          documents).take top_k
  ∧ List.Sorted (fun x y : ℚ => y ≤ x)
      ((rerankFallback documents top_k).map fun d => d.original_score)
  ∧ (rerankFallback documents top_k).map (fun d => d.final_rank)
      = List.range' 1 (rerankFallback documents top_k).length := by
  intro M query documents top_k min_score
  refine ⟨?_, ?_, ?_, ?_, rerankFallback_map_doc documents top_k, ?_, ?_⟩
  · cases documents with
    | nil => simp [rerank_documents, rerankFallback]
    | cons d rest => rfl
  · intro predict e h
    cases documents with
    | nil => simp [rerank_documents, rerankFallback]
    | cons d rest =>
      simp only [rerank_documents, h]
  · unfold rerankFallback
    rw [List.length_map, List.enum_length]
    exact List.length_take_le _ _
  · intro d hd
    unfold rerankFallback at hd
    rcases List.mem_map.mp hd with ⟨p, _, hpd⟩
    rw [← hpd]
  · have hmap : (rerankFallback documents top_k).map
        (fun d => d.original_score)
        = ((List.insertionSort (fun a b : Doc M => b.2.2 ≤ a.2.2)
            documents).take top_k).map (fun d : Doc M => d.2.2) := by
      rw [← rerankFallback_map_doc documents top_k, List.map_map]
      rfl
    rw [hmap]
    have hsorted : List.Sorted (fun a b : Doc M => b.2.2 ≤ a.2.2)
        ((List.insertionSort (fun a b : Doc M => b.2.2 ≤ a.2.2)
          documents).take top_k) :=
      List.Pairwise.sublist (List.take_sublist _ _) (origDescSort_sorted documents)
    exact List.Pairwise.map _ (fun a b h => h) hsorted
  · unfold rerankFallback
    rw [List.map_map, List.length_map, List.enum_length]
    have hcomp : ((fun d : RankedDocument M => d.final_rank)
        ∘ fun p : ℕ × Doc M =>
          (⟨p.2.1, p.2.2.1, p.2.2.2, p.2.2.2, p.1 + 1⟩ : RankedDocument M))
        = (fun i => i + 1) ∘ Prod.fst := by
      funext p
      rfl
    rw [hcomp, ← List.map_map, List.enum_map_fst, List.range'_eq_map_range]
    have hlen : ((List.insertionSort (fun a b : Doc M => b.2.2 ≤ a.2.2)
        documents).take top_k).length
        = ((List.insertionSort (fun a b : Doc M => b.2.2 ≤ a.2.2)
            documents).take top_k).enum.length := by
      rw [List.enum_length]
    rw [← List.enum_length]
    exact List.map_congr_left fun i _ => Nat.add_comm i 1

/-- C7: a job entering _process_job Pending moves Pending -> Running ->
Completed or Failed with no skipped or reversed transition; a raising
handler yields Failed with the exception message stored in error and
completed_at recorded; the exception is absorbed (processJob is total and
returns the updated job, so nothing escapes the dispatch loop). -/
theorem processJob_lifecycle :
    ∀ {V : Type} (handler : Except (List Char) V) (t_start t_end : ℚ)
      (job : Job V),
    (job.status = JobStatus.pending →
        List.Chain' JobStatus.step (statusWrites handler job))
  ∧ ((processJob handler t_start t_end job).status = JobStatus.completed
      ∨ (processJob handler t_start t_end job).status = JobStatus.failed)
  ∧ ((processJob handler t_start t_end job).status
      = (statusWrites handler job).getLast (by simp [statusWrites]))
  ∧ (∀ e, handler = .error e →
        (processJob handler t_start t_end job).status = JobStatus.failed
      ∧ (processJob handler t_start t_end job).error = some e)
  ∧ (∀ v, handler = .ok v →
        (processJob handler t_start t_end job).status = JobStatus.completed
      ∧ (processJob handler t_start t_end job).result = some v)
  ∧ (processJob handler t_start t_end job).completed_at = some t_end
  ∧ (processJob handler t_start t_end job).started_at = some t_start := by
  intro V handler t_start t_end job
  refine ⟨?_, ?_, ?_, ?_, ?_, ?_, ?_⟩
  · intro h
    cases handler <;>
      simp [statusWrites, h, JobStatus.step, List.chain'_cons]
  · cases handler <;> simp [processJob]
  · cases handler <;> simp [processJob, statusWrites]
  · intro e he
    subst he
    simp [processJob]
  · intro v hv
    subst hv
    simp [processJob]
  · cases handler <;> simp [processJob]
  · cases handler <;> simp [processJob]

lemma retryLoop_allOk (c attempt : ℕ) :
    retryLoop (fun _ => CallResult.ok) c attempt 3
      = (RetryOut.succeeded, c + 1, []) := rfl

lemma ceil_div_of_le (B L : ℕ) (h0 : 0 < L) (hL : L ≤ B) :
    (L + B - 1) / B = 1 := by
  have hB : 0 < B := by omega
  have h1 : 1 * B ≤ L + B - 1 := by omega
  have h2 : L + B - 1 < (1 + 1) * B := by omega
  exact Nat.div_eq_of_lt_le h1 h2

lemma ceil_div_step (B L : ℕ) (hB : 0 < B) (hL : B < L) :
    (L + B - 1) / B = ((L - B) + B - 1) / B + 1 := by
  have h : L + B - 1 = ((L - B) + B - 1) + B := by omega
  rw [h, Nat.add_div_right _ hB]

lemma one_le_ceil_div (B L : ℕ) (h0 : 0 < L) (hB : 0 < B) :
    1 ≤ (L + B - 1) / B := by
  exact (Nat.le_div_iff_mul_le hB).mpr (by omega)

lemma processBatches_allOk {α : Type} (B : ℕ) (D : ℚ) (hB : 0 < B) :
    ∀ (fuel : ℕ) (rem : List α) (st : EmbedRun α), rem ≠ [] →
    rem.length ≤ fuel →
    processBatches (fun _ => CallResult.ok) B D fuel rem st
      = .ok ⟨some (st.chunks.getD [] ++ rem),
              st.calls + (rem.length + B - 1) / B,
              st.sleeps ++ List.replicate ((rem.length + B - 1) / B - 1) D⟩ := by
  intro fuel
  induction fuel with
  | zero =>
    intro rem st hne hlen
    cases rem with
    | nil => exact absurd rfl hne
    | cons a rest => simp at hlen
  | succ n ih =>
    intro rem st hne hlen
    cases rem with
    | nil => exact absurd rfl hne
    | cons a rest =>
      rw [show processBatches (fun _ => CallResult.ok) B D (n + 1) (a :: rest) st
          = processBatches (fun _ => CallResult.ok) B D n ((a :: rest).drop B)
              (if B < (a :: rest).length then
                ⟨some (st.chunks.getD [] ++ (a :: rest).take B), st.calls + 1,
                  (st.sleeps ++ []) ++ [D]⟩
              else
                ⟨some (st.chunks.getD [] ++ (a :: rest).take B), st.calls + 1,
                  st.sleeps ++ []⟩) from rfl]
      by_cases h : B < (a :: rest).length
      · rw [if_pos h]
        have hdrop : (a :: rest).drop B ≠ [] := by
          intro hd
          have := List.drop_eq_nil_iff.mp hd
          omega
        have hlen' : ((a :: rest).drop B).length ≤ n := by
          rw [List.length_drop]
          omega
        rw [ih ((a :: rest).drop B) _ hdrop hlen']
        have hq : 1 ≤ (((a :: rest).drop B).length + B - 1) / B := by
          apply one_le_ceil_div
          · rw [List.length_drop]
            omega
          · exact hB
        have hceil : ((a :: rest).length + B - 1) / B
            = (((a :: rest).drop B).length + B - 1) / B + 1 := by
          rw [List.length_drop]
          exact ceil_div_step B (a :: rest).length hB h
        congr 1
        congr 1
        · dsimp only
          rw [Option.getD_some, List.append_assoc, List.take_append_drop]
        · dsimp only
          rw [hceil]
          omega
        · dsimp only
          rw [hceil, List.append_nil, List.append_assoc]
          congr 1
          rw [show (((a :: rest).drop B).length + B - 1) / B + 1 - 1
              = ((((a :: rest).drop B).length + B - 1) / B - 1) + 1 by omega]
          rw [List.replicate_succ]
          rfl
      · rw [if_neg h]
        have hle : (a :: rest).length ≤ B := by omega
        rw [List.drop_eq_nil_of_le hle]
        rw [show processBatches (fun _ => CallResult.ok) B D n []
            (⟨some (st.chunks.getD [] ++ (a :: rest).take B), st.calls + 1,
              st.sleeps ++ []⟩ : EmbedRun α)
            = .ok ⟨some (st.chunks.getD [] ++ (a :: rest).take B), st.calls + 1,
                st.sleeps ++ []⟩ by cases n <;> rfl]
        have hceil : ((a :: rest).length + B - 1) / B = 1 :=
          ceil_div_of_le B (a :: rest).length (by simp) hle
        rw [List.take_of_length_le hle, hceil]
        simp

/-- C8: with every provider call succeeding (no retries), create_vector_db
on N&nbsp;&gt;&nbsp;0 chunks issues exactly ceil(N/B) embedding calls, the merged
index holds exactly the N input chunks in order, and the inter-batch delay
D is slept between successive batches and not after the last (so exactly
ceil(N/B) - 1 delay sleeps); the second conjunct instantiates the module's
constants B = 50, D = 1. -/
theorem create_vector_db_batching :
    (∀ {α : Type} (B : ℕ) (D : ℚ) (texts : List α), 0 < B → texts ≠ [] →
        createVectorDbGen (fun _ => CallResult.ok) B D texts
          = .ok (some ⟨some texts, (texts.length + B - 1) / B,
              List.replicate ((texts.length + B - 1) / B - 1) D⟩))
  ∧ (∀ {α : Type} (texts : List α), texts ≠ [] →
        create_vector_db (fun _ => CallResult.ok) texts
          = .ok (some ⟨some texts, (texts.length + 49) / 50,
              List.replicate ((texts.length + 49) / 50 - 1) 1⟩)) := by
  have main : ∀ {α : Type} (B : ℕ) (D : ℚ) (texts : List α), 0 < B →
      texts ≠ [] →
      createVectorDbGen (fun _ => CallResult.ok) B D texts
        = .ok (some ⟨some texts, (texts.length + B - 1) / B,
            List.replicate ((texts.length + B - 1) / B - 1) D⟩) := by
    intro α B D texts hB hne
    cases texts with
    | nil => exact absurd rfl hne
    | cons a rest =>
      by_cases h : B < (a :: rest).length
      · rw [show createVectorDbGen (fun _ => CallResult.ok) B D (a :: rest)
            = (if B < (a :: rest).length then
                match processBatches (fun _ => CallResult.ok) B D
                    (a :: rest).length (a :: rest) ⟨none, 0, []⟩ with
                | .error msg => .error msg
                | .ok st =>
                  match st.chunks with
                  | none => .error
                      "attributeerror: nonetype object has no attribute save_local".toList
                  | some _ => .ok (some st)
              else
                match retryLoop (fun _ => CallResult.ok) 0 0 3 with
                | (.succeeded, c, s) => .ok (some ⟨some (a :: rest), c, s⟩)
                | (.exhausted, _, _) =>
                    .error "failed after multiple retries due to quota limits".toList
                | (.fatal msg, _, _) => .error msg) from rfl]
        rw [if_pos h]
        rw [processBatches_allOk B D hB (a :: rest).length (a :: rest)
          ⟨none, 0, []⟩ (by simp) (le_refl _)]
        simp
      · rw [show createVectorDbGen (fun _ => CallResult.ok) B D (a :: rest)
            = (if B < (a :: rest).length then
                match processBatches (fun _ => CallResult.ok) B D
                    (a :: rest).length (a :: rest) ⟨none, 0, []⟩ with
                | .error msg => .error msg
                | .ok st =>
                  match st.chunks with
                  | none => .error
                      "attributeerror: nonetype object has no attribute save_local".toList
                  | some _ => .ok (some st)
              else
                match retryLoop (fun _ => CallResult.ok) 0 0 3 with
                | (.succeeded, c, s) => .ok (some ⟨some (a :: rest), c, s⟩)
                | (.exhausted, _, _) =>
                    .error "failed after multiple retries due to quota limits".toList
                | (.fatal msg, _, _) => .error msg) from rfl]
        rw [if_neg h, retryLoop_allOk]
        have hceil : ((a :: rest).length + B - 1) / B = 1 :=
          ceil_div_of_le B (a :: rest).length (by simp) (by omega)
        rw [hceil]
        simp
  refine ⟨fun B D texts hB hne => main B D texts hB hne, ?_⟩
  intro α texts hne
  have h := main 50 1 texts (by norm_num) hne
  rw [show texts.length + 50 - 1 = texts.length + 49 by omega] at h
  exact h

/-- C2 (code evidence): on 51 chunks whose second batch hits a transient
quota error on all three attempts, create_vector_db returns successfully —
the merged index holds only the 50 first-batch chunks after 4 provider
calls, and no error is raised (the batched retry loop has no else clause) —
whereas the same exhaustion on the single-batch path (second conjunct) does
raise, as the spec demands for both. -/
theorem create_vector_db_exhaustion_not_raised :
    (create_vector_db
        (fun n => if n = 0 then CallResult.ok
                  else CallResult.err "quota".toList)
        (List.range 51)).map (Option.map fun st => (st.chunks, st.calls))
      = .ok (some (some (List.range 50), 4))
  ∧ create_vector_db (fun _ => CallResult.err "quota".toList) [(0 : ℕ)]
      = .error "failed after multiple retries due to quota limits".toList := by
  exact ⟨rfl, rfl⟩

lemma oldestEntry_mem (e : List Char × (Chain × ℚ)) (rest : QaCache) :
    oldestEntry e rest ∈ e :: rest := by
  induction rest generalizing e with
  | nil => simp [oldestEntry]
  | cons x rest ih =>
    rw [show oldestEntry e (x :: rest)
        = oldestEntry (if x.2.2 < e.2.2 then x else e) rest from rfl]
    rcases List.mem_cons.mp (ih (if x.2.2 < e.2.2 then x else e)) with h | h
    · rw [h]
      by_cases hx : x.2.2 < e.2.2
      · rw [if_pos hx]
        exact List.mem_cons_of_mem _ (List.mem_cons_self _ _)
      · rw [if_neg hx]
        exact List.mem_cons_self _ _
    · exact List.mem_cons_of_mem _ (List.mem_cons_of_mem _ h)

lemma oldestEntry_min (e : List Char × (Chain × ℚ)) (rest : QaCache) :
    ∀ x ∈ e :: rest, (oldestEntry e rest).2.2 ≤ x.2.2 := by
  induction rest generalizing e with
  | nil =>
    intro x hx
    rcases List.mem_cons.mp hx with h | h
    · rw [h]
      exact le_refl _
    · simp at h
  | cons y rest ih =>
    intro x hx
    rw [show oldestEntry e (y :: rest)
        = oldestEntry (if y.2.2 < e.2.2 then y else e) rest from rfl]
    have hz : (oldestEntry (if y.2.2 < e.2.2 then y else e) rest).2.2
        ≤ (if y.2.2 < e.2.2 then y else e).2.2 :=
      ih (if y.2.2 < e.2.2 then y else e)
        (if y.2.2 < e.2.2 then y else e) (List.mem_cons_self _ _)
    have hze : (if y.2.2 < e.2.2 then y else e).2.2 ≤ e.2.2 := by
      by_cases hy : y.2.2 < e.2.2
      · rw [if_pos hy]
        exact le_of_lt hy
      · rw [if_neg hy]
    have hzy : (if y.2.2 < e.2.2 then y else e).2.2 ≤ y.2.2 := by
      by_cases hy : y.2.2 < e.2.2
      · rw [if_pos hy]
      · rw [if_neg hy]
        exact not_lt.mp hy
    rcases List.mem_cons.mp hx with h1 | h1
    · rw [h1]
      exact le_trans hz hze
    · rcases List.mem_cons.mp h1 with h2 | h2
      · rw [h2]
        exact le_trans hz hzy
      · exact ih (if y.2.2 < e.2.2 then y else e) x
          (List.mem_cons_of_mem _ h2)

lemma lookupKey?_isSome_of_mem {β : Type} (l : List (List Char × β))
    (x : List Char × β) (hx : x ∈ l) : (lookupKey? l x.1).isSome := by
  induction l with
  | nil => simp at hx
  | cons e rest ih =>
    obtain ⟨kk, v⟩ := e
    rw [lookupKey?_cons]
    by_cases h : kk = x.1
    · rw [if_pos h]
      rfl
    · rw [if_neg h]
      rcases List.mem_cons.mp hx with h1 | h1
      · exact absurd (congrArg Prod.fst h1).symm h
      · exact ih h1

lemma length_eraseKey_lt {β : Type} (l : List (List Char × β))
    (key : List Char) (h : (lookupKey? l key).isSome) :
    (eraseKey l key).length < l.length := by
  induction l with
  | nil => simp [lookupKey?_nil] at h
  | cons e rest ih =>
    obtain ⟨kk, v⟩ := e
    rw [lookupKey?_cons] at h
    by_cases h1 : kk = key
    · rw [eraseKey_cons, if_pos h1]
      have := length_eraseKey_le rest key
      simp only [List.length_cons]
      omega
    · rw [if_neg h1] at h
      rw [eraseKey_cons, if_neg h1]
      simp only [List.length_cons]
      exact Nat.succ_lt_succ (ih h)

lemma lookupKey?_eraseKey_none {β : Type} (l : List (List Char × β))
    {key p : List Char} (h : lookupKey? l p = none) :
    lookupKey? (eraseKey l key) p = none := by
  by_cases hp : p = key
  · subst hp
    exact lookupKey?_eraseKey_self l p
  · rw [lookupKey?_eraseKey_of_ne l hp]
    exact h

lemma buildAndCache_built (fs : List Char → Option Chain) (path : List Char)
    (now : ℚ) (cache : QaCache) :
    (buildAndCache fs path now cache).built = true := by
  unfold buildAndCache
  cases h : get_qa_chain fs path <;> simp

lemma buildAndCache_cases (fs : List Char → Option Chain) (path : List Char)
    (now : ℚ) (cache : QaCache) :
    buildAndCache fs path now cache
      = match get_qa_chain fs path with
        | some chain =>
          ⟨some chain,
            (match cache with
              | [] => cache
              | e :: rest =>
                if QA_CHAIN_CACHE_MAX_SIZE ≤ cache.length then
                  eraseKey cache (oldestEntry e rest).1
                else cache) ++ [(path, (chain, now))], true⟩
        | none => ⟨none, cache, true⟩ := rfl

lemma buildAndCache_of_some (fs : List Char → Option Chain) (path : List Char)
    (now : ℚ) (cache : QaCache) (chain : Chain)
    (hb : get_qa_chain fs path = some chain) :
    buildAndCache fs path now cache
      = ⟨some chain,
          (match cache with
            | [] => cache
            | e :: rest =>
              if QA_CHAIN_CACHE_MAX_SIZE ≤ cache.length then
                eraseKey cache (oldestEntry e rest).1
              else cache) ++ [(path, (chain, now))], true⟩ := by
  rw [buildAndCache_cases, hb]

lemma buildAndCache_of_none (fs : List Char → Option Chain) (path : List Char)
    (now : ℚ) (cache : QaCache)
    (hb : get_qa_chain fs path = none) :
    buildAndCache fs path now cache = ⟨none, cache, true⟩ := by
  rw [buildAndCache_cases, hb]

lemma buildAndCache_length_le (fs : List Char → Option Chain)
    (path : List Char) (now : ℚ) (cache : QaCache)
    (h : cache.length ≤ QA_CHAIN_CACHE_MAX_SIZE) :
    (buildAndCache fs path now cache).cache.length
      ≤ QA_CHAIN_CACHE_MAX_SIZE := by
  cases hb : get_qa_chain fs path with
  | none => rw [buildAndCache_of_none fs path now cache hb]; exact h
  | some chain =>
    rw [buildAndCache_of_some fs path now cache chain hb]
    cases cache with
    | nil =>
      simp [QA_CHAIN_CACHE_MAX_SIZE]
    | cons e rest =>
      dsimp only
      by_cases hcap : QA_CHAIN_CACHE_MAX_SIZE ≤ (e :: rest).length
      · rw [if_pos hcap, List.length_append]
        have hmem := oldestEntry_mem e rest
        have hsome := lookupKey?_isSome_of_mem (e :: rest) _ hmem
        have := length_eraseKey_lt (e :: rest) (oldestEntry e rest).1 hsome
        simp only [List.length_cons, List.length_nil] at *
        omega
      · rw [if_neg hcap, List.length_append]
        simp only [List.length_cons, List.length_nil] at *
        omega

lemma lookupKey?_buildAndCache_self (fs : List Char → Option Chain)
    (path : List Char) (now : ℚ) (cache : QaCache) (chain : Chain)
    (hb : get_qa_chain fs path = some chain)
    (h0 : lookupKey? cache path = none) :
    lookupKey? (buildAndCache fs path now cache).cache path
      = some (chain, now) := by
  rw [buildAndCache_of_some fs path now cache chain hb]
  cases cache with
  | nil =>
    dsimp only
    rw [lookupKey?_append, lookupKey?_nil, lookupKey?_cons, if_pos rfl]
    rfl
  | cons e rest =>
    dsimp only
    by_cases hcap : QA_CHAIN_CACHE_MAX_SIZE ≤ (e :: rest).length
    · rw [if_pos hcap, lookupKey?_append, lookupKey?_eraseKey_none _ h0,
        lookupKey?_cons, if_pos rfl]
      rfl
    · rw [if_neg hcap, lookupKey?_append, h0, lookupKey?_cons, if_pos rfl]
      rfl

lemma get_cached_cases (fs : List Char → Option Chain) (path : List Char)
    (now : ℚ) (cache : QaCache) :
    get_cached_qa_chain fs path now cache
      = match lookupKey? cache path with
        | some (chain, cached_at) =>
          if now - cached_at < QA_CHAIN_CACHE_TTL then
            ⟨some chain, updateKey cache path (chain, now), false⟩
          else buildAndCache fs path now (eraseKey cache path)
        | none => buildAndCache fs path now cache := rfl

lemma get_cached_of_miss (fs : List Char → Option Chain) (path : List Char)
    (now : ℚ) (cache : QaCache) (hl : lookupKey? cache path = none) :
    get_cached_qa_chain fs path now cache = buildAndCache fs path now cache := by
  rw [get_cached_cases, hl]

lemma get_cached_of_fresh (fs : List Char → Option Chain) (path : List Char)
    (now : ℚ) (cache : QaCache) (chain : Chain) (cached_at : ℚ)
    (hl : lookupKey? cache path = some (chain, cached_at))
    (hf : now - cached_at < QA_CHAIN_CACHE_TTL) :
    get_cached_qa_chain fs path now cache
      = ⟨some chain, updateKey cache path (chain, now), false⟩ := by
  rw [get_cached_cases, hl]
  dsimp only
  rw [if_pos hf]

lemma get_cached_of_expired (fs : List Char → Option Chain) (path : List Char)
    (now : ℚ) (cache : QaCache) (chain : Chain) (cached_at : ℚ)
    (hl : lookupKey? cache path = some (chain, cached_at))
    (hf : ¬ now - cached_at < QA_CHAIN_CACHE_TTL) :
    get_cached_qa_chain fs path now cache
      = buildAndCache fs path now (eraseKey cache path) := by
  rw [get_cached_cases, hl]
  dsimp only
  rw [if_neg hf]

lemma get_cached_length_le (fs : List Char → Option Chain)
    (path : List Char) (now : ℚ) (cache : QaCache)
    (h : cache.length ≤ QA_CHAIN_CACHE_MAX_SIZE) :
    (get_cached_qa_chain fs path now cache).cache.length
      ≤ QA_CHAIN_CACHE_MAX_SIZE := by
  cases hl : lookupKey? cache path with
  | none =>
    rw [get_cached_of_miss fs path now cache hl]
    exact buildAndCache_length_le fs path now cache h
  | some v =>
    obtain ⟨chain, cached_at⟩ := v
    by_cases hf : now - cached_at < QA_CHAIN_CACHE_TTL
    · rw [get_cached_of_fresh fs path now cache chain cached_at hl hf]
      dsimp only
      rw [length_updateKey]
      exact h
    · rw [get_cached_of_expired fs path now cache chain cached_at hl hf]
      exact buildAndCache_length_le fs path now _
        (le_trans (length_eraseKey_le cache path) h)

lemma runCacheOps_length_le (ops : List CacheOp) :
    ∀ cache : QaCache, cache.length ≤ QA_CHAIN_CACHE_MAX_SIZE →
    (runCacheOps ops cache).length ≤ QA_CHAIN_CACHE_MAX_SIZE := by
  induction ops with
  | nil =>
    intro cache h
    exact h
  | cons op rest ih =>
    intro cache h
    cases op with
    | get fs p t =>
      exact ih _ (get_cached_length_le fs p t cache h)
    | invalidate p? =>
      cases p? with
      | none =>
        exact ih _ (by simp [clear_qa_chain_cache, QA_CHAIN_CACHE_MAX_SIZE])
      | some p =>
        exact ih _ (le_trans (length_eraseKey_le cache p) h)

/-- C5: after any sequence of cache operations from the empty cache, the
chain cache holds at most QA_CHAIN_CACHE_MAX_SIZE = 10 entries; and an
insert at capacity (a miss with a successful build on a full cache) evicts
exactly the entry with the minimal stored last_access timestamp (the first
such entry in insertion order), then appends the new one. -/
theorem chain_cache_capacity_and_lru_eviction :
    (∀ ops : List CacheOp,
        (runCacheOps ops []).length ≤ QA_CHAIN_CACHE_MAX_SIZE)
  ∧ (∀ (fs : List Char → Option Chain) (path : List Char) (now : ℚ)
        (e : List Char × (Chain × ℚ)) (rest : QaCache) (chain : Chain),
        lookupKey? (e :: rest) path = none →
        get_qa_chain fs path = some chain →
        QA_CHAIN_CACHE_MAX_SIZE ≤ (e :: rest).length →
        (get_cached_qa_chain fs path now (e :: rest)).cache
            = eraseKey (e :: rest) (oldestEntry e rest).1
                ++ [(path, (chain, now))]
          ∧ oldestEntry e rest ∈ e :: rest
          ∧ ∀ x ∈ e :: rest, (oldestEntry e rest).2.2 ≤ x.2.2) := by
  constructor
  · intro ops
    exact runCacheOps_length_le ops [] (by simp [QA_CHAIN_CACHE_MAX_SIZE])
  · intro fs path now e rest chain hmiss hb hcap
    refine ⟨?_, oldestEntry_mem e rest, oldestEntry_min e rest⟩
    rw [get_cached_of_miss fs path now _ hmiss,
      buildAndCache_of_some fs path now _ chain hb]
    dsimp only
    rw [if_pos hcap]

/-- C3: a first get for an uncached key builds and caches the chain; a
second get within the TTL returns the identical cached chain without
invoking the build (so the build ran exactly once across the two calls) and
slides the entry's timestamp; a third get after the TTL has elapsed since
the last access deletes the expired entry and performs exactly one rebuild
on the remaining cache. -/
theorem chain_cache_ttl_hit_then_expiry
    (fs1 fs2 fs3 : List Char → Option Chain) (path : List Char)
    (t0 t1 t2 : ℚ) (cache0 : QaCache) (chain : Chain)
    (h0 : lookupKey? cache0 path = none)
    (hb : get_qa_chain fs1 path = some chain)
    (h01 : t1 - t0 < QA_CHAIN_CACHE_TTL)
    (h12 : ¬ t2 - t1 < QA_CHAIN_CACHE_TTL) :
    (get_cached_qa_chain fs1 path t0 cache0).chain = some chain
  ∧ (get_cached_qa_chain fs1 path t0 cache0).built = true
  ∧ (get_cached_qa_chain fs2 path t1
        (get_cached_qa_chain fs1 path t0 cache0).cache).chain = some chain
  ∧ (get_cached_qa_chain fs2 path t1
        (get_cached_qa_chain fs1 path t0 cache0).cache).built = false
  ∧ (get_cached_qa_chain fs3 path t2
        (get_cached_qa_chain fs2 path t1
          (get_cached_qa_chain fs1 path t0 cache0).cache).cache)
        = buildAndCache fs3 path t2
            (eraseKey (get_cached_qa_chain fs2 path t1
              (get_cached_qa_chain fs1 path t0 cache0).cache).cache path)
  ∧ (get_cached_qa_chain fs3 path t2
        (get_cached_qa_chain fs2 path t1
          (get_cached_qa_chain fs1 path t0 cache0).cache).cache).built
      = true := by
  have hr1 : get_cached_qa_chain fs1 path t0 cache0
      = buildAndCache fs1 path t0 cache0 :=
    get_cached_of_miss fs1 path t0 cache0 h0
  have hr1l : lookupKey? (get_cached_qa_chain fs1 path t0 cache0).cache path
      = some (chain, t0) := by
    rw [hr1]
    exact lookupKey?_buildAndCache_self fs1 path t0 cache0 chain hb h0
  have hr2 : get_cached_qa_chain fs2 path t1
      (get_cached_qa_chain fs1 path t0 cache0).cache
      = ⟨some chain,
          updateKey (get_cached_qa_chain fs1 path t0 cache0).cache path
            (chain, t1), false⟩ :=
    get_cached_of_fresh fs2 path t1 _ chain t0 hr1l h01
  have hr2l : lookupKey? (get_cached_qa_chain fs2 path t1
      (get_cached_qa_chain fs1 path t0 cache0).cache).cache path
      = some (chain, t1) := by
    rw [hr2]
    dsimp only
    rw [lookupKey?_updateKey_self, hr1l]
    rfl
  have hr3 : get_cached_qa_chain fs3 path t2
      (get_cached_qa_chain fs2 path t1
        (get_cached_qa_chain fs1 path t0 cache0).cache).cache
      = buildAndCache fs3 path t2
          (eraseKey (get_cached_qa_chain fs2 path t1
            (get_cached_qa_chain fs1 path t0 cache0).cache).cache path) :=
    get_cached_of_expired fs3 path t2 _ chain t1 hr2l h12
  refine ⟨?_, ?_, ?_, ?_, hr3, ?_⟩
  · rw [hr1, buildAndCache_of_some fs1 path t0 cache0 chain hb]
  · rw [hr1]
    exact buildAndCache_built fs1 path t0 cache0
  · rw [hr2]
  · rw [hr2]
  · rw [hr3]
    exact buildAndCache_built fs3 path t2 _

/-- C3 (witness): the scenario at fs = const chain 7, path "p", times 0, 1
and 3700 on the empty cache. -/
theorem chain_cache_ttl_hit_then_expiry_witness :
    (get_cached_qa_chain (fun _ => some 7) ['p'] 0 []).chain = some 7
  ∧ (get_cached_qa_chain (fun _ => some 7) ['p'] 0 []).built = true
  ∧ (get_cached_qa_chain (fun _ => some 7) ['p'] 1
        (get_cached_qa_chain (fun _ => some 7) ['p'] 0 []).cache).chain
      = some 7
  ∧ (get_cached_qa_chain (fun _ => some 7) ['p'] 1
        (get_cached_qa_chain (fun _ => some 7) ['p'] 0 []).cache).built
      = false
  ∧ (get_cached_qa_chain (fun _ => some 7) ['p'] 3700
        (get_cached_qa_chain (fun _ => some 7) ['p'] 1
          (get_cached_qa_chain (fun _ => some 7) ['p'] 0 []).cache).cache)
        = buildAndCache (fun _ => some 7) ['p'] 3700
            (eraseKey (get_cached_qa_chain (fun _ => some 7) ['p'] 1
              (get_cached_qa_chain (fun _ => some 7) ['p'] 0 []).cache).cache
              ['p'])
  ∧ (get_cached_qa_chain (fun _ => some 7) ['p'] 3700
        (get_cached_qa_chain (fun _ => some 7) ['p'] 1
          (get_cached_qa_chain (fun _ => some 7) ['p'] 0 []).cache).cache).built
      = true :=
  chain_cache_ttl_hit_then_expiry (fun _ => some 7) (fun _ => some 7)
    (fun _ => some 7) ['p'] 0 1 3700 [] 7 rfl rfl
    (by norm_num [QA_CHAIN_CACHE_TTL])
    (by norm_num [QA_CHAIN_CACHE_TTL])

/-- C9 (counterexample): with the corpus directory missing (the build
yields none), ChainCache.get returns ok None — a plain value, not an
exception: the call is not equal to any raised error. -/
theorem chain_cache_build_failure_not_raised_cex :
    get_cached_qa_chain_exc (fun _ => none) ['p'] 0 []
        = .ok ⟨none, [], true⟩
  ∧ ∀ e : List Char,
      get_cached_qa_chain_exc (fun _ => none) ['p'] 0 [] ≠ .error e := by
  refine ⟨rfl, ?_⟩
  intro e h
  exact Except.noConfusion h

/-- C9 (amended): when no valid pipeline can be built for an uncached key
(missing corpus directory or unreadable index artifacts make get_qa_chain
yield none), get_cached_qa_chain returns None to its caller and raises
nothing — the embedded call in the exception monad is ok. -/
theorem chain_cache_build_failure_returns_none
    (fs : List Char → Option Chain) (path : List Char) (now : ℚ)
    (cache : QaCache)
    (hb : get_qa_chain fs path = none)
    (hmiss : lookupKey? cache path = none) :
    get_cached_qa_chain fs path now cache
        = ⟨none, cache, true⟩
  ∧ get_cached_qa_chain_exc fs path now cache = .ok ⟨none, cache, true⟩ := by
  have h : get_cached_qa_chain fs path now cache = ⟨none, cache, true⟩ := by
    rw [get_cached_of_miss fs path now cache hmiss]
    exact buildAndCache_of_none fs path now cache hb
  exact ⟨h, by rw [get_cached_qa_chain_exc, h]⟩

/-- C9 (witness): the empty cache and a build that yields nothing. -/
theorem chain_cache_build_failure_returns_none_witness :
    get_cached_qa_chain (fun _ => none) ['q'] 2 []
        = ⟨none, [], true⟩
  ∧ get_cached_qa_chain_exc (fun _ => none) ['q'] 2 []
        = .ok ⟨none, [], true⟩ :=
  chain_cache_build_failure_returns_none (fun _ => none) ['q'] 2 [] rfl rfl

/-- C10 (counterexample): a failed rebuild does not leave the cache map
unchanged: with an expired entry for the key present, the expired entry is
deleted before the build attempt, so the cache ends empty while the
original held one entry. -/
theorem chain_cache_failed_rebuild_changes_cache_cex :
    (get_cached_qa_chain (fun _ => none) ['p'] 3600
        [(['p'], ((7 : Chain), (0 : ℚ)))]).cache = []
  ∧ ([(['p'], ((7 : Chain), (0 : ℚ)))] : QaCache) ≠ []
  ∧ (get_cached_qa_chain (fun _ => none) ['p'] 3600
        [(['p'], ((7 : Chain), (0 : ℚ)))]).chain = none := by
  have hl : lookupKey? [(['p'], ((7 : Chain), (0 : ℚ)))] ['p']
      = some (7, 0) := rfl
  have hexp : ¬ (3600 : ℚ) - 0 < QA_CHAIN_CACHE_TTL := by
    norm_num [QA_CHAIN_CACHE_TTL]
  have h := get_cached_of_expired (fun _ => none) ['p'] 3600
    [(['p'], ((7 : Chain), (0 : ℚ)))] 7 0 hl hexp
  have herase : eraseKey [(['p'], ((7 : Chain), (0 : ℚ)))] ['p'] = [] := rfl
  rw [herase] at h
  rw [h, buildAndCache_of_none (fun _ => none) ['p'] 3600 [] rfl]
  exact ⟨rfl, by simp, rfl⟩

/-- C10 (amended): when the build yields no pipeline and the key has no
fresh cache entry, get_cached_qa_chain returns None, no entry for the key
is inserted, every other key's binding is untouched, and the cache equals
the original minus any (already expired) entry for the key; every later get
for the key attempts the build again instead of serving a cached failure. -/
theorem chain_cache_failed_rebuild_no_insert
    (fs : List Char → Option Chain) (path : List Char) (now : ℚ)
    (cache : QaCache)
    (hb : get_qa_chain fs path = none)
    (hnf : ¬ FreshHit cache path now) :
    (get_cached_qa_chain fs path now cache).chain = none
  ∧ (get_cached_qa_chain fs path now cache).built = true
  ∧ (get_cached_qa_chain fs path now cache).cache = eraseKey cache path
  ∧ lookupKey? (get_cached_qa_chain fs path now cache).cache path = none
  ∧ (∀ q, q ≠ path →
      lookupKey? (get_cached_qa_chain fs path now cache).cache q
        = lookupKey? cache q)
  ∧ (∀ (fs' : List Char → Option Chain) (now' : ℚ),
      (get_cached_qa_chain fs' path now'
        (get_cached_qa_chain fs path now cache).cache).built = true) := by
  have hcache : get_cached_qa_chain fs path now cache
      = ⟨none, eraseKey cache path, true⟩ := by
    cases hl : lookupKey? cache path with
    | none =>
      rw [get_cached_of_miss fs path now cache hl,
        buildAndCache_of_none fs path now cache hb,
        eraseKey_of_lookup_none cache hl]
    | some v =>
      obtain ⟨c, ts⟩ := v
      have hexp : ¬ now - ts < QA_CHAIN_CACHE_TTL :=
        fun hf => hnf ⟨c, ts, hl, hf⟩
      rw [get_cached_of_expired fs path now cache c ts hl hexp,
        buildAndCache_of_none fs path now _ hb]
  refine ⟨by rw [hcache], by rw [hcache], by rw [hcache], ?_, ?_, ?_⟩
  · rw [hcache]
    exact lookupKey?_eraseKey_self cache path
  · intro q hq
    rw [hcache]
    exact lookupKey?_eraseKey_of_ne cache hq
  · intro fs' now'
    have hmiss : lookupKey?
        (get_cached_qa_chain fs path now cache).cache path = none := by
      rw [hcache]
      exact lookupKey?_eraseKey_self cache path
    rw [get_cached_of_miss fs' path now' _ hmiss]
    exact buildAndCache_built fs' path now' _

/-- C10 (witness): the empty cache, a key "p" and a build yielding nothing:
no fresh hit exists, so the amended claim applies. -/
theorem chain_cache_failed_rebuild_no_insert_witness :
    (get_cached_qa_chain (fun _ => none) ['p'] 5 []).chain = none
  ∧ (get_cached_qa_chain (fun _ => none) ['p'] 5 []).built = true
  ∧ (get_cached_qa_chain (fun _ => none) ['p'] 5 []).cache = eraseKey [] ['p']
  ∧ lookupKey? (get_cached_qa_chain (fun _ => none) ['p'] 5 []).cache ['p']
      = none
  ∧ (∀ q, q ≠ ['p'] →
      lookupKey? (get_cached_qa_chain (fun _ => none) ['p'] 5 []).cache q
        = lookupKey? ([] : QaCache) q)
  ∧ (∀ (fs' : List Char → Option Chain) (now' : ℚ),
      (get_cached_qa_chain fs' ['p'] now'
        (get_cached_qa_chain (fun _ => none) ['p'] 5 []).cache).built
      = true) :=
  chain_cache_failed_rebuild_no_insert (fun _ => none) ['p'] 5 [] rfl
    (fun h => by
      rcases h with ⟨c, ts, hl, _⟩
      exact Option.noConfusion hl)

end CodeRAG
